import Mathlib

/-!
Verification of the toolkit library (src/v2/tools.go) against its
specification. Strings are modelled as lists of characters (one character
per byte: all concrete inputs are ASCII), Go int64 fields as Int, byte
slices as lists of Nat. External capabilities (the crypto random source,
http.DetectContentType, the filesystem) are parameters of the model;
everything else is translated line by line from src/v2/tools.go.
-/

namespace Toolkit

/-- The fixed 64-character alphabet of src/v2/tools.go line 17
(`randomStringSource`), as a list of characters. -/
def randomStringSource : List Char :=
  "abcdefghijklmnopqrstuvwxyzABCDEFGHIJKLMNOPQRSTUVWXYZ0123456789_+".data

/-- The `Tools` receiver struct (src/v2/tools.go lines 21-26). Go int64
fields become Int. -/
structure Tools where
  MaxFileSize : Int := 0
  AllowedFileTypes : List String := []
  MaxJSONSize : Int := 0
  AllowUnknownFields : Bool := false
deriving DecidableEq

/-- The property `crypto/rand.Prime(rand.Reader, 64)` guarantees of each
draw: a prime with exactly 64 bits. -/
def primeDraw64 (p : Nat) : Prop := Nat.Prime p ∧ 2 ^ 63 ≤ p ∧ p < 2 ^ 64

/-- One character of `RandomString`: the source writes `s[i] = r[x%y]`
with `x = p.Uint64()` (the drawn 64-bit prime) and `y = 64`
(src/v2/tools.go lines 37-38). The index is always in range, so the
default of `getD` is never used. -/
def randomChar (p : Nat) : Char := randomStringSource.getD (p % 64) ' '

/-- `RandomString` (src/v2/tools.go lines 30-41), with the stream of
values drawn from `crypto/rand.Prime` supplied as the function `draws`
(the i-th loop iteration uses `draws i`). The receiver is unused by the
source. The error branch of `rand.Prime` is not modelled: the draws are
given. -/
def RandomString (draws : Nat → Nat) (n : Nat) : List Char :=
  (List.range n).map fun i => randomChar (draws i)

/-- The 32 characters of `randomStringSource` that sit at odd indices:
the only ones `randomChar` can produce from an odd draw. -/
def oddIndexChars : List Char := "bdfhjlnprtvxzBDFHJLNPRTVXZ13579+".data

/-- A 64-bit prime is odd: it exceeds 2, and an even prime would be 2. -/
theorem primeDraw64_mod_two (p : Nat) (h : primeDraw64 p) : p % 2 = 1 := by
  rcases h with ⟨hp, hlo, _⟩
  have h2 : p ≠ 2 := by
    intro he
    rw [he] at hlo
    norm_num at hlo
  exact Nat.odd_iff.mp (hp.odd_of_ne_two h2)

/-- Characters of the source at odd indices below 64 are exactly the
members of `oddIndexChars`; in particular none of them is the letter a. -/
theorem oddIndex_char_mem (i : Fin 64) (h : i.val % 2 = 1) :
    randomStringSource.getD i.val ' ' ∈ oddIndexChars ∧
      randomStringSource.getD i.val ' ' ∈ randomStringSource := by
  revert h
  revert i
  decide

theorem randomChar_of_odd (p : Nat) (h : p % 2 = 1) :
    randomChar p ∈ oddIndexChars ∧ randomChar p ∈ randomStringSource := by
  have hlt : p % 64 < 64 := Nat.mod_lt _ (by norm_num)
  have hodd : p % 64 % 2 = 1 := by
    rw [Nat.mod_mod_of_dvd p (by norm_num : (2 : ℕ) ∣ 64)]
    exact h
  exact oddIndex_char_mem ⟨p % 64, hlt⟩ hodd

/-- C3, counterexample. The claim says each character of `RandomString n`
is drawn uniformly from the full 64-character alphabet; under a uniform
draw the letter a (index 0) would appear with probability 1/64. In fact
no sequence of draws that `crypto/rand.Prime(.,64)` can produce — 64-bit
primes, hence odd numbers, so `p % 64` is odd — ever yields the letter a
anywhere in the output: only the 32 characters at odd indices are
reachable. -/
theorem randomString_uniform_cex :
    ¬ ∃ (draws : Nat → Nat) (n : Nat),
      (∀ i, primeDraw64 (draws i)) ∧ 'a' ∈ RandomString draws n := by
  rintro ⟨draws, n, hv, hmem⟩
  rw [RandomString, List.mem_map] at hmem
  obtain ⟨i, -, heq⟩ := hmem
  have hodd := primeDraw64_mod_two (draws i) (hv i)
  have hmem2 := (randomChar_of_odd (draws i) hodd).1
  rw [heq] at hmem2
  revert hmem2
  decide

/-- C3, amended. For all n, `RandomString` returns exactly n characters
and each is a character of the 64-character alphabet — but only one of
the 32 characters at odd alphabet indices, because every value
`crypto/rand.Prime(.,64)` can return is odd (`primeDraw64_mod_two`). The
hypothesis asks only for oddness of each draw, which every 64-bit prime
satisfies, so the theorem covers every real draw sequence. -/
theorem randomString_length_and_alphabet (draws : Nat → Nat) (n : Nat)
    (h : ∀ i, draws i % 2 = 1) :
    (RandomString draws n).length = n ∧
      ∀ c ∈ RandomString draws n,
        c ∈ randomStringSource ∧ c ∈ oddIndexChars := by
  constructor
  · rw [RandomString, List.length_map, List.length_range]
  · intro c hc
    rw [RandomString, List.mem_map] at hc
    obtain ⟨i, -, heq⟩ := hc
    have := randomChar_of_odd (draws i) (h i)
    rw [heq] at this
    exact ⟨this.2, this.1⟩

/-- C3, witness: the amended theorem applied to the constant draw 1 and
length 2 (the output is then the string bb). -/
theorem randomString_length_and_alphabet_witness :
    (RandomString (fun _ => 1) 2).length = 2 ∧
      ∀ c ∈ RandomString (fun _ => 1) 2,
        c ∈ randomStringSource ∧ c ∈ oddIndexChars :=
  randomString_length_and_alphabet (fun _ => 1) 2 (fun _ => rfl)

/-! ## Multipart upload ingestion (src/v2/tools.go lines 44-163)

The parsed form `r.MultipartForm.File` is a Go map from form field name
to that field's file headers. `mime/multipart` appends each part to its
field's slice in the order the body is read, but the order in which
`range` visits the map's keys is unspecified (and randomized by the Go
runtime). The model keeps both facts: a request carries its file parts
in body encounter order, each paired with its field name, and
`UploadFiles` takes the key iteration order as the extra parameter
`fieldOrder`, so the processing sequence (`processedParts`) visits
fields in that unspecified order and, within one field, parts in body
order — exactly the source's double loop. The filesystem capability
(`CreateDirIfNotExist`, `os.Create`, `io.Copy`, `Seek`) is modelled as
succeeding; the read errors that are determined by the part's own
content (the `io.EOF` a `Read` on an empty part returns) are modelled
exactly. The external sniffer `http.DetectContentType` is a parameter
`detect`, and the random names `t.RandomString(25)` generates are a
parameter `ng` indexed by processing position. -/

/-- `UploadedFile` (src/v2/tools.go lines 44-48). -/
structure UploadedFile where
  NewFileName : String
  OriginalFileName : String
  FileSize : Int
deriving DecidableEq

/-- One file part of the parsed multipart body: the client-supplied file
name of its header and its content bytes. -/
structure FilePart where
  Filename : String
  content : List Nat
deriving DecidableEq

/-- A request after the multipart body has been read: its file parts in
body encounter order, each paired with the name of the form field it
was posted under, and whether `ParseMultipartForm` fails (oversized or
malformed body). -/
structure Request where
  parts : List (String × FilePart)
  parseError : Bool := false
deriving DecidableEq

/-- The sequence of file parts as the double loop of `UploadFiles`
visits them (src/v2/tools.go lines 78-79): field names in the map's
iteration order `fieldOrder`, and within one field its parts in body
order (`r.MultipartForm.File[f]` lists them in the order read). -/
def processedParts : List String → List (String × FilePart) → List FilePart
  | [], _ => []
  | f :: fs, parts =>
    (parts.filter (fun q => q.1 == f)).map Prod.snd ++ processedParts fs parts

/-- The errors `UploadFiles` can return. `parseErr` is the message "the
uploaded file is too big" (line 75), `readErr` the `io.EOF` that
`inFile.Read` returns on an empty part (line 92), `notPermitted` the
message "the uploaded file type is not permitted" (line 112). -/
inductive UploadErr where
  | parseErr
  | readErr
  | notPermitted
deriving DecidableEq

/-- ASCII lower-casing of one character (Go's folding restricted to
ASCII; all concrete inputs are ASCII). -/
def asciiLower (c : Char) : Char :=
  if 'A' ≤ c ∧ c ≤ 'Z' then Char.ofNat (c.toNat + 32) else c

/-- Go `strings.EqualFold`, restricted to ASCII case folding (all
concrete inputs are ASCII MIME type names). -/
def goEqualFold (a b : String) : Bool :=
  a.data.map asciiLower == b.data.map asciiLower

/-- Go `path/filepath.Ext`: the suffix of the final slash-separated
element beginning at its final dot, or the empty string if there is no
dot. -/
def goExt (s : String) : String :=
  let revTail := s.data.reverse.takeWhile (fun c => c ≠ '/')
  if revTail.contains '.' then
    String.mk (((revTail.takeWhile (fun c => c ≠ '.')) ++ ['.']).reverse)
  else ""

/-- The 512-byte buffer handed to `http.DetectContentType`
(src/v2/tools.go lines 89-98): `buff := make([]byte, 512)` is
zero-initialised and a single `Read` fills its first `min 512 len`
bytes, so the sniffer sees the part's prefix zero-padded to exactly 512
bytes — not just the part's own bytes. -/
def sniffBuffer (content : List Nat) : List Nat :=
  content.take 512 ++ List.replicate (512 - min 512 content.length) 0

/-- The allow-list check (src/v2/tools.go lines 97-109): with a
non-empty list, some entry must match the detected type under
`strings.EqualFold`; an empty list allows everything. -/
def goAllowed (types : List String) (fileType : String) : Bool :=
  if types.length > 0 then types.any (fun a => goEqualFold fileType a)
  else true

/-- The `UploadedFile` record built for an accepted part
(src/v2/tools.go lines 119-137): renamed parts get the generated
25-character token plus the original extension, the original file name
is recorded, and `io.Copy` after `Seek(0, 0)` writes the whole content,
so `FileSize` is the content length. -/
def mkRecord (rename : Bool) (genName : String) (p : FilePart) : UploadedFile :=
  { NewFileName := if rename then genName ++ goExt p.Filename else p.Filename
    OriginalFileName := p.Filename
    FileSize := (p.content.length : Int) }

/-- The per-part closure (src/v2/tools.go lines 80-142). On any error it
returns `(nil, err)` — the accumulated list is replaced by the empty
list, exactly as the source's `return nil, err` does. An empty part
fails at the initial `Read` (which returns `io.EOF`); a non-empty part
is sniffed from `sniffBuffer`, checked against the allow-list, and on
acceptance its record is appended to the accumulator. -/
def processPart (t : Tools) (detect : List Nat → String) (rename : Bool)
    (genName : String) (acc : List UploadedFile) (p : FilePart) :
    List UploadedFile × Option UploadErr :=
  match p.content with
  | [] => ([], some .readErr)
  | _ :: _ =>
    let fileType := detect (sniffBuffer p.content)
    if goAllowed t.AllowedFileTypes fileType then
      (acc ++ [mkRecord rename genName p], none)
    else ([], some .notPermitted)

/-- The double loop over the form's file headers (src/v2/tools.go lines
78-147): each part is processed in order; the closure's result replaces
the accumulator, and a non-nil error returns the (replaced) accumulator
together with the error. -/
def uploadLoop (t : Tools) (detect : List Nat → String) (rename : Bool)
    (ng : Nat → String) (idx : Nat) (acc : List UploadedFile) :
    List FilePart → List UploadedFile × Option UploadErr
  | [] => (acc, none)
  | p :: ps =>
    match processPart t detect rename (ng idx) acc p with
    | (files, some e) => (files, some e)
    | (files, none) => uploadLoop t detect rename ng (idx + 1) files ps

/-- `UploadFiles` (src/v2/tools.go lines 56-150). The receiver is a
pointer, so the mutated `Tools` is returned alongside the result: a zero
`MaxFileSize` is replaced by 1 GiB before anything else (lines 65-67).
Directory creation is modelled as succeeding; a `ParseMultipartForm`
failure returns nil and the message "the uploaded file is too big". The
parameter `fieldOrder` resolves the unspecified order in which the
double loop's `range` visits the field-name map's keys. -/
def UploadFiles (t : Tools) (detect : List Nat → String) (ng : Nat → String)
    (fieldOrder : List String) (r : Request) (rename : Bool) :
    Tools × (List UploadedFile × Option UploadErr) :=
  let t' := if t.MaxFileSize = 0 then
      { t with MaxFileSize := 1024 * 1024 * 1024 } else t
  if r.parseError then (t', ([], some .parseErr))
  else (t', uploadLoop t' detect rename ng 0 [] (processedParts fieldOrder r.parts))

/-- The three ways `UploadOneFile` can come back: a record, an error
from `UploadFiles`, or the runtime index-out-of-range fault that
`files[0]` raises on an empty slice. -/
inductive OneFileOutcome where
  | ok (f : UploadedFile)
  | err (e : UploadErr)
  | indexOutOfRange
deriving DecidableEq

/-- `UploadOneFile` (src/v2/tools.go lines 153-163): calls `UploadFiles`
and returns `files[0]` without checking that the slice is non-empty, so
a successful upload of zero parts is the out-of-range fault. -/
def UploadOneFile (t : Tools) (detect : List Nat → String) (ng : Nat → String)
    (fieldOrder : List String) (r : Request) (rename : Bool) :
    Tools × OneFileOutcome :=
  let (t', files, err) := UploadFiles t detect ng fieldOrder r rename
  match err with
  | some e => (t', .err e)
  | none =>
    match files with
    | [] => (t', .indexOutOfRange)
    | f :: _ => (t', .ok f)

/-- A concrete stand-in for the external `http.DetectContentType` used
to instantiate theorems: content starting with the PNG magic byte 137 is
image/png, anything else application/octet-stream. -/
def detectStub (b : List Nat) : String :=
  if b.headD 0 = 137 then "image/png" else "application/octet-stream"

/-- A concrete stand-in for the generated 25-character random names. -/
def ngStub (i : Nat) : String := "n" ++ toString i

/-- A `Tools` value whose allow-list admits only image/png. -/
def toolsPNG : Tools := { AllowedFileTypes := ["image/png"] }

/-- A `Tools` value whose empty allow-list admits every detected type. -/
def toolsAny : Tools := {}

/-- A part whose content sniffs as image/png under `detectStub`. -/
def partPNG : FilePart := { Filename := "a.png", content := [137, 80, 78, 71] }

/-- A second part whose content sniffs as image/png under `detectStub`,
distinguishable from `partPNG` by its file name. -/
def partPNG2 : FilePart := { Filename := "c.png", content := [137, 5, 6] }

/-- A part whose content sniffs as application/octet-stream under
`detectStub`. -/
def partBad : FilePart := { Filename := "b.bin", content := [1, 2, 3] }

/-- The records the loop produces when every part from position `idx` on
is accepted: one record per part, in encounter order. -/
def partRecords (rename : Bool) (ng : Nat → String) :
    Nat → List FilePart → List UploadedFile
  | _, [] => []
  | idx, p :: ps => mkRecord rename (ng idx) p :: partRecords rename ng (idx + 1) ps

theorem processPart_err (t : Tools) (detect : List Nat → String)
    (rename : Bool) (gn : String) (acc : List UploadedFile) (p : FilePart)
    (files : List UploadedFile) (e : UploadErr)
    (h : processPart t detect rename gn acc p = (files, some e)) : files = [] := by
  rw [processPart] at h
  rcases hc : p.content with - | ⟨b, bs⟩ <;> rw [hc] at h
  · exact (Prod.mk.injEq _ _ _ _ ▸ h).1.symm ▸ rfl
  · dsimp only at h
    split at h
    · simp at h
    · exact (Prod.mk.injEq _ _ _ _ ▸ h).1.symm ▸ rfl

theorem processPart_ok (t : Tools) (detect : List Nat → String)
    (rename : Bool) (gn : String) (acc : List UploadedFile) (p : FilePart)
    (files : List UploadedFile)
    (h : processPart t detect rename gn acc p = (files, none)) :
    files = acc ++ [mkRecord rename gn p] := by
  rw [processPart] at h
  rcases hc : p.content with - | ⟨b, bs⟩ <;> rw [hc] at h
  · simp at h
  · dsimp only at h
    split at h
    · exact ((Prod.mk.injEq _ _ _ _ ▸ h).1).symm
    · simp at h

theorem uploadLoop_err (t : Tools) (detect : List Nat → String)
    (rename : Bool) (ng : Nat → String) :
    ∀ (ps : List FilePart) (idx : Nat) (acc files : List UploadedFile)
      (e : UploadErr),
      uploadLoop t detect rename ng idx acc ps = (files, some e) → files = [] := by
  intro ps
  induction ps with
  | nil => intro idx acc files e h; simp [uploadLoop] at h
  | cons p ps ih =>
    intro idx acc files e h
    rw [uploadLoop] at h
    rcases hp : processPart t detect rename (ng idx) acc p with ⟨fs, oe⟩
    rcases oe with - | e'
    · rw [hp] at h
      exact ih (idx + 1) fs files e h
    · rw [hp] at h
      obtain ⟨h1, h2⟩ := Prod.mk.injEq _ _ _ _ ▸ h
      exact h1 ▸ processPart_err t detect rename (ng idx) acc p fs e' hp

theorem uploadLoop_ok (t : Tools) (detect : List Nat → String)
    (rename : Bool) (ng : Nat → String) :
    ∀ (ps : List FilePart) (idx : Nat) (acc files : List UploadedFile),
      uploadLoop t detect rename ng idx acc ps = (files, none) →
        files = acc ++ partRecords rename ng idx ps := by
  intro ps
  induction ps with
  | nil =>
    intro idx acc files h
    simp only [uploadLoop] at h
    obtain ⟨h1, -⟩ := Prod.mk.injEq _ _ _ _ ▸ h
    simp [partRecords, h1.symm]
  | cons p ps ih =>
    intro idx acc files h
    rw [uploadLoop] at h
    rcases hp : processPart t detect rename (ng idx) acc p with ⟨fs, oe⟩
    rcases oe with - | e'
    · rw [hp] at h
      have hacc := processPart_ok t detect rename (ng idx) acc p fs hp
      have := ih (idx + 1) fs files h
      rw [this, hacc, partRecords]
      simp
    · rw [hp] at h
      simp at h

theorem partRecords_length (rename : Bool) (ng : Nat → String) :
    ∀ (ps : List FilePart) (idx : Nat),
      (partRecords rename ng idx ps).length = ps.length := by
  intro ps
  induction ps with
  | nil => intro idx; rfl
  | cons p ps ih => intro idx; simp [partRecords, ih (idx + 1)]

theorem partRecords_get (rename : Bool) (ng : Nat → String) :
    ∀ (ps : List FilePart) (idx i : Nat) (h1 : i < (partRecords rename ng idx ps).length)
      (h2 : i < ps.length),
      (partRecords rename ng idx ps).get ⟨i, h1⟩ =
        mkRecord rename (ng (idx + i)) (ps.get ⟨i, h2⟩) := by
  intro ps
  induction ps with
  | nil => intro idx i h1 h2; exact absurd h2 (Nat.not_lt_zero i)
  | cons p ps ih =>
    intro idx i h1 h2
    rcases i with - | j
    · simp [partRecords]
    · have h1' : j < (partRecords rename ng (idx + 1) ps).length := by
        rw [partRecords_length]
        exact Nat.lt_of_succ_lt_succ h2
      have h2' : j < ps.length := Nat.lt_of_succ_lt_succ h2
      simp only [partRecords, List.get_cons_succ]
      rw [ih (idx + 1) j h1' h2']
      have hidx : idx + 1 + j = idx + (j + 1) := by omega
      rw [hidx]

theorem processedParts_nil (fo : List String) : processedParts fo [] = [] := by
  induction fo with
  | nil => rfl
  | cons f fs ih => rw [processedParts, ih]; rfl

theorem processedParts_skip (f : String) :
    ∀ (fs : List String) (parts : List (String × FilePart)), f ∉ fs →
      processedParts fs (parts.filter (fun q => !(q.1 == f))) =
        processedParts fs parts := by
  intro fs
  induction fs with
  | nil => intro parts _; rfl
  | cons g gs ih =>
    intro parts hg
    have hgf : g ≠ f := by
      intro he
      exact hg (he ▸ List.mem_cons_self g gs)
    rw [processedParts, processedParts]
    rw [ih parts (fun hm => hg (List.mem_cons_of_mem g hm))]
    congr 2
    rw [List.filter_filter]
    apply List.filter_congr
    intro q hq
    rcases hqg : (q.1 == g) with - | -
    · simp [hqg]
    · have hq1 : q.1 = g := eq_of_beq hqg
      simp [hqg, hq1, hgf]

theorem processedParts_perm :
    ∀ (fo : List String) (parts : List (String × FilePart)), fo.Nodup →
      (∀ q ∈ parts, q.1 ∈ fo) →
      (processedParts fo parts).Perm (parts.map Prod.snd) := by
  intro fo
  induction fo with
  | nil =>
    intro parts _ hcov
    rcases parts with - | ⟨q, qs⟩
    · exact List.Perm.refl _
    · exact absurd (hcov q (List.mem_cons_self q qs)) (List.not_mem_nil _)
  | cons f fs ih =>
    intro parts hnd hcov
    have hfnotin : f ∉ fs := (List.nodup_cons.mp hnd).1
    have hndfs : fs.Nodup := (List.nodup_cons.mp hnd).2
    have hcov2 : ∀ q ∈ parts.filter (fun q => !(q.1 == f)), q.1 ∈ fs := by
      intro q hq
      have hmem := List.mem_of_mem_filter hq
      have hflt := List.of_mem_filter hq
      have hne : q.1 ≠ f := by
        intro he
        rw [he] at hflt
        simp at hflt
      rcases List.mem_cons.mp (hcov q hmem) with h1 | h2
      · exact absurd h1 hne
      · exact h2
    have hih := ih (parts.filter (fun q => !(q.1 == f))) hndfs hcov2
    rw [processedParts, ← processedParts_skip f fs parts hfnotin]
    have step1 : List.Perm
        ((parts.filter (fun q => q.1 == f)).map Prod.snd ++
          processedParts fs (parts.filter (fun q => !(q.1 == f))))
        ((parts.filter (fun q => q.1 == f)).map Prod.snd ++
          (parts.filter (fun q => !(q.1 == f))).map Prod.snd) :=
      hih.append_left _
    have step2 : (parts.filter (fun q => q.1 == f)).map Prod.snd ++
          (parts.filter (fun q => !(q.1 == f))).map Prod.snd
        = (parts.filter (fun q => q.1 == f) ++
            parts.filter (fun q => !(q.1 == f))).map Prod.snd :=
      (List.map_append _ _ _).symm
    have step3 : List.Perm
        ((parts.filter (fun q => q.1 == f) ++
            parts.filter (fun q => !(q.1 == f))).map Prod.snd)
        (parts.map Prod.snd) :=
      (List.filter_append_perm _ parts).map Prod.snd
    exact step1.trans (by rw [step2]; exact step3)

theorem processedParts_no_field :
    ∀ (fs : List String) (parts : List (String × FilePart)),
      (∀ g ∈ fs, ∀ q ∈ parts, q.1 ≠ g) → processedParts fs parts = [] := by
  intro fs
  induction fs with
  | nil => intro parts _; rfl
  | cons g gs ih =>
    intro parts h
    rw [processedParts]
    rw [ih parts (fun g2 hg2 q hq => h g2 (List.mem_cons_of_mem g hg2) q hq)]
    rw [List.append_nil]
    have hflt : parts.filter (fun q => q.1 == g) = [] := by
      rw [List.filter_eq_nil_iff]
      intro q hq
      simp [h g (List.mem_cons_self g gs) q hq]
    rw [hflt]
    rfl

theorem processedParts_single_field :
    ∀ (fo : List String) (parts : List (String × FilePart)) (f0 : String),
      fo.Nodup → f0 ∈ fo → (∀ q ∈ parts, q.1 = f0) →
      processedParts fo parts = parts.map Prod.snd := by
  intro fo
  induction fo with
  | nil => intro parts f0 _ h _; exact absurd h (List.not_mem_nil f0)
  | cons f fs ih =>
    intro parts f0 hnd hmem hall
    rw [processedParts]
    by_cases hf : f = f0
    · subst hf
      have h1 : parts.filter (fun q => q.1 == f) = parts := by
        rw [List.filter_eq_self]
        intro q hq
        simp [hall q hq]
      have h2 : processedParts fs parts = [] := by
        apply processedParts_no_field
        intro g hg q hq
        rw [hall q hq]
        intro he
        exact (List.nodup_cons.mp hnd).1 (he ▸ hg)
      rw [h1, h2, List.append_nil]
    · have h1 : parts.filter (fun q => q.1 == f) = [] := by
        rw [List.filter_eq_nil_iff]
        intro q hq
        rw [hall q hq]
        simp [Ne.symm hf]
      have hmem2 : f0 ∈ fs := by
        rcases List.mem_cons.mp hmem with h | h
        · exact absurd h.symm hf
        · exact h
      rw [h1]
      simp only [List.map_nil, List.nil_append]
      exact ih parts f0 (List.nodup_cons.mp hnd).2 hmem2 hall

set_option maxRecDepth 8192 in
/-- C4, counterexample. The original claim says the returned list is
ordered by the order the parts were encountered in the body. With file
parts under two different field names — here the body carries a part
under field alpha before a part under field beta — and the map's
iteration order visiting beta first (one of the orders Go's randomized
map iteration produces), `UploadFiles` succeeds but returns the records
beta-part-first: not body encounter order. -/
theorem uploadFiles_encounter_order_cex :
    (UploadFiles toolsPNG detectStub ngStub ["beta", "alpha"]
        { parts := [("alpha", partPNG), ("beta", partPNG2)], parseError := false }
        false).2
      = ([mkRecord false (ngStub 0) partPNG2, mkRecord false (ngStub 1) partPNG], none) ∧
    [mkRecord false (ngStub 0) partPNG2, mkRecord false (ngStub 1) partPNG] ≠
      [mkRecord false (ngStub 0) partPNG, mkRecord false (ngStub 1) partPNG2] := by
  constructor <;> decide

/-- C4, amended: for every invocation of `UploadFiles` whose multipart
body parses, with the field-name map iterated in any order `fieldOrder`
enumerating the fields (no key visited twice, every part's field
visited), each `UploadedFile` of the returned list is the record of the
part at the same position of the processing sequence `processedParts`
— the map's unspecified key order, with body encounter order among the
parts of one field — and on full success there is exactly one record
per part of the body (the processing sequence is a permutation of the
body's parts). Whenever all parts share one field name, the processing
sequence IS the body's encounter order, recovering the original claim.
(On an error the source's closure has replaced the list by nil, so the
correspondence is trivially preserved.) -/
theorem uploadFiles_order (t : Tools) (detect : List Nat → String)
    (ng : Nat → String) (rename : Bool) (fieldOrder : List String) (r : Request)
    (files : List UploadedFile) (err : Option UploadErr)
    (hp : r.parseError = false)
    (hnd : fieldOrder.Nodup)
    (hcov : ∀ q ∈ r.parts, q.1 ∈ fieldOrder)
    (heq : (UploadFiles t detect ng fieldOrder r rename).2 = (files, err)) :
    files.length ≤ r.parts.length ∧
      (err = none → files.length = r.parts.length) ∧
      (∀ (i : Nat) (h1 : i < files.length)
          (h2 : i < (processedParts fieldOrder r.parts).length),
        files.get ⟨i, h1⟩ =
          mkRecord rename (ng i) ((processedParts fieldOrder r.parts).get ⟨i, h2⟩)) ∧
      (processedParts fieldOrder r.parts).Perm (r.parts.map Prod.snd) ∧
      ∀ f0 : String, (∀ q ∈ r.parts, q.1 = f0) →
        processedParts fieldOrder r.parts = r.parts.map Prod.snd := by
  rw [UploadFiles] at heq
  rw [hp] at heq
  simp only [Bool.false_eq_true, if_false] at heq
  have hperm := processedParts_perm fieldOrder r.parts hnd hcov
  have hlen : (processedParts fieldOrder r.parts).length = r.parts.length := by
    rw [hperm.length_eq, List.length_map]
  have hsingle : ∀ f0 : String, (∀ q ∈ r.parts, q.1 = f0) →
      processedParts fieldOrder r.parts = r.parts.map Prod.snd := by
    intro f0 hall
    by_cases hps : r.parts = []
    · rw [hps, processedParts_nil]
      rfl
    · obtain ⟨q, qs, hqq⟩ := List.exists_cons_of_ne_nil hps
      have hq0 : q.1 = f0 := hall q (hqq ▸ List.mem_cons_self q qs)
      have hmem : f0 ∈ fieldOrder := hq0 ▸ hcov q (hqq ▸ List.mem_cons_self q qs)
      exact processedParts_single_field fieldOrder r.parts f0 hnd hmem hall
  rcases err with - | e
  · have hok := uploadLoop_ok _ detect rename ng
      (processedParts fieldOrder r.parts) 0 [] files heq
    rw [List.nil_append] at hok
    subst hok
    refine ⟨?_, fun _ => ?_, ?_, hperm, hsingle⟩
    · rw [partRecords_length, hlen]
    · rw [partRecords_length, hlen]
    · intro i h1 h2
      have hg := partRecords_get rename ng (processedParts fieldOrder r.parts) 0 i h1 h2
      rw [Nat.zero_add] at hg
      exact hg
  · have hnil := uploadLoop_err _ detect rename ng
      (processedParts fieldOrder r.parts) 0 [] files e heq
    subst hnil
    refine ⟨Nat.zero_le _, fun h => by simp at h, ?_, hperm, hsingle⟩
    intro i h1 h2
    exact absurd h1 (Nat.not_lt_zero i)

/-- A request carrying two acceptable PNG parts under one field name,
used to instantiate the order theorem. -/
def reqTwo : Request :=
  { parts := [("pngFile", partPNG), ("pngFile", partPNG2)], parseError := false }

/-- The list `UploadFiles` returns for `reqTwo` when the single field
is iterated. -/
def filesTwo : List UploadedFile :=
  (UploadFiles toolsPNG detectStub ngStub ["pngFile"] reqTwo true).2.1

set_option maxRecDepth 8192 in
/-- C4, witness: the order theorem applied to the concrete two-part
single-field request `reqTwo`, discharging every hypothesis by
computation. -/
theorem uploadFiles_order_witness :
    filesTwo.length ≤ reqTwo.parts.length ∧
      ((none : Option UploadErr) = none → filesTwo.length = reqTwo.parts.length) ∧
      (∀ (i : Nat) (h1 : i < filesTwo.length)
          (h2 : i < (processedParts ["pngFile"] reqTwo.parts).length),
        filesTwo.get ⟨i, h1⟩ =
          mkRecord true (ngStub i) ((processedParts ["pngFile"] reqTwo.parts).get ⟨i, h2⟩)) ∧
      (processedParts ["pngFile"] reqTwo.parts).Perm (reqTwo.parts.map Prod.snd) ∧
      ∀ f0 : String, (∀ q ∈ reqTwo.parts, q.1 = f0) →
        processedParts ["pngFile"] reqTwo.parts = reqTwo.parts.map Prod.snd :=
  uploadFiles_order toolsPNG detectStub ngStub true ["pngFile"] reqTwo filesTwo none
    rfl (by simp) (by decide) (by decide)

set_option maxRecDepth 8192 in
/-- C1: a two-part request whose first part is accepted and written and
whose second part fails the type check. The second conjunct shows the
first part alone yields its record; the first shows that with the
failing second part the already-produced record is lost — `UploadFiles`
returns the empty list with the error, because the per-part closure's
`return nil, err` overwrites the accumulator before the outer
`return uploadedFiles, err` runs. The claim (and the spec's partial
success policy) says the part-1 record should still be returned. -/
theorem uploadFiles_partial_records_lost :
    (UploadFiles toolsPNG detectStub ngStub ["pngFile"]
        { parts := [("pngFile", partPNG), ("pngFile", partBad)], parseError := false }
        false).2
      = ([], some .notPermitted) ∧
    (UploadFiles toolsPNG detectStub ngStub ["pngFile"]
        { parts := [("pngFile", partPNG)], parseError := false } false).2
      = ([mkRecord false (ngStub 0) partPNG], none) := by
  constructor <;> decide

theorem uploadLoop_single (t : Tools) (detect : List Nat → String)
    (rename : Bool) (ng : Nat → String) (idx : Nat)
    (acc : List UploadedFile) (p : FilePart) :
    uploadLoop t detect rename ng idx acc [p] =
      processPart t detect rename (ng idx) acc p := by
  rw [uploadLoop]
  rcases h : processPart t detect rename (ng idx) acc p with ⟨fs, oe⟩
  rcases oe with - | e
  · rfl
  · rfl

/-- C2: when the multipart body parses but contains zero file parts,
`UploadOneFile` reaches `files[0]` on the empty slice and faults with
the index-out-of-range condition instead of a descriptive error; when
`UploadFiles` succeeds with at least one record, the first record is
returned. -/
theorem uploadOneFile_zero_parts (t : Tools) (detect : List Nat → String)
    (ng : Nat → String) (rename : Bool) (fieldOrder : List String) (r : Request)
    (hp : r.parseError = false) :
    (r.parts = [] →
      (UploadOneFile t detect ng fieldOrder r rename).2 = .indexOutOfRange) ∧
      ∀ (f : UploadedFile) (fs : List UploadedFile),
        (UploadFiles t detect ng fieldOrder r rename).2 = (f :: fs, none) →
          (UploadOneFile t detect ng fieldOrder r rename).2 = .ok f := by
  constructor
  · intro hparts
    rw [UploadOneFile, UploadFiles, hp, hparts, processedParts_nil]
    rfl
  · intro f fs h
    rw [UploadOneFile]
    have hu : UploadFiles t detect ng fieldOrder r rename =
        ((UploadFiles t detect ng fieldOrder r rename).1, (f :: fs, none)) := by
      rw [← h]
    rw [hu]

/-- C2, witness: the theorem applied to a parse-clean request with zero
parts, showing the fault outcome on the concrete empty upload. -/
theorem uploadOneFile_zero_parts_witness :
    (UploadOneFile toolsPNG detectStub ngStub ["pngFile"]
        { parts := [], parseError := false } true).2 = .indexOutOfRange :=
  (uploadOneFile_zero_parts toolsPNG detectStub ngStub true ["pngFile"]
    { parts := [], parseError := false } rfl).1 rfl

set_option maxRecDepth 8192 in
/-- C5, counterexample. The claim says parts shorter than 512 bytes —
including empty parts — are classified from their own (possibly empty)
prefix rather than failing. On a request whose one part is empty, even
with an allow-everything configuration, `UploadFiles` fails with the
read error (`inFile.Read` returns `io.EOF`), so the part is never
classified. Moreover the buffer handed to the sniffer for a 3-byte part
is not the 3-byte prefix: it is always 512 bytes long, the prefix
zero-padded. -/
theorem uploadFiles_sniff_cex :
    (UploadFiles toolsAny detectStub ngStub ["file"]
        { parts := [("file", { Filename := "e.bin", content := [] })],
          parseError := false } true).2
      = ([], some .readErr) ∧
    sniffBuffer [1, 2, 3] ≠ [1, 2, 3] ∧
    (sniffBuffer [1, 2, 3]).length = 512 := by
  refine ⟨by decide, by decide, by decide⟩

/-- C5, amended: for a single-part request, an empty part makes
`UploadFiles` fail with the read error before any classification, and a
non-empty part is rejected as an unsupported type exactly when the
allow-list check fails on the type the sniffer assigns to the fixed
512-byte zero-padded buffer `sniffBuffer` (the part's first
`min 512 len` bytes followed by zero padding), not on the part's own
prefix alone. -/
theorem uploadFiles_sniff_spec (t : Tools) (detect : List Nat → String)
    (ng : Nat → String) (rename : Bool) (f : String) (p : FilePart) :
    (p.content = [] →
      (UploadFiles t detect ng [f]
          { parts := [(f, p)], parseError := false } rename).2
        = ([], some .readErr)) ∧
    (p.content ≠ [] →
      ((UploadFiles t detect ng [f]
            { parts := [(f, p)], parseError := false } rename).2.2
          = some .notPermitted ↔
        goAllowed t.AllowedFileTypes (detect (sniffBuffer p.content)) = false)) := by
  have ht' : (if t.MaxFileSize = 0 then { t with MaxFileSize := 1024 * 1024 * 1024 }
      else t).AllowedFileTypes = t.AllowedFileTypes := by
    split <;> rfl
  have hpp : processedParts [f] [(f, p)] = [p] := by
    rw [processedParts, processedParts]
    simp
  constructor
  · intro hc
    rw [UploadFiles]
    simp only [Bool.false_eq_true, if_false]
    rw [hpp, uploadLoop_single, processPart, hc]
  · intro hc
    rcases hcc : p.content with - | ⟨b, bs⟩
    · exact absurd hcc hc
    rw [UploadFiles]
    simp only [Bool.false_eq_true, if_false]
    rw [hpp, uploadLoop_single, processPart, hcc]
    dsimp only
    rw [ht']
    rcases hg : goAllowed t.AllowedFileTypes (detect (sniffBuffer (b :: bs)))
    · simp [hg]
    · simp [hg]

theorem uploadFiles_fst (t : Tools) (detect : List Nat → String)
    (ng : Nat → String) (fieldOrder : List String) (r : Request) (rename : Bool) :
    (UploadFiles t detect ng fieldOrder r rename).1 =
      (if t.MaxFileSize = 0 then { t with MaxFileSize := 1024 * 1024 * 1024 }
        else t) := by
  rw [UploadFiles]
  split <;> rfl

/-- C10: `UploadFiles` mutates its pointer receiver exactly on the
`MaxFileSize` field — a zero value becomes 1 GiB and any other value is
kept, so a later call on the returned `Tools` sees the stored value and
changes nothing (idempotence conjunct); `AllowedFileTypes`,
`MaxJSONSize` and `AllowUnknownFields` are untouched, and
`UploadOneFile` produces the same receiver as the `UploadFiles` call it
wraps. -/
theorem uploadFiles_frame (t : Tools) (detect : List Nat → String)
    (ng : Nat → String) (fieldOrder : List String) (r : Request) (rename : Bool) :
    (UploadFiles t detect ng fieldOrder r rename).1.MaxFileSize
        = (if t.MaxFileSize = 0 then 1024 * 1024 * 1024 else t.MaxFileSize) ∧
      (UploadFiles t detect ng fieldOrder r rename).1.AllowedFileTypes
        = t.AllowedFileTypes ∧
      (UploadFiles t detect ng fieldOrder r rename).1.MaxJSONSize = t.MaxJSONSize ∧
      (UploadFiles t detect ng fieldOrder r rename).1.AllowUnknownFields
        = t.AllowUnknownFields ∧
      (UploadOneFile t detect ng fieldOrder r rename).1
        = (UploadFiles t detect ng fieldOrder r rename).1 ∧
      (UploadFiles (UploadFiles t detect ng fieldOrder r rename).1
          detect ng fieldOrder r rename).1
        = (UploadFiles t detect ng fieldOrder r rename).1 := by
  have hone : (UploadOneFile t detect ng fieldOrder r rename).1
      = (UploadFiles t detect ng fieldOrder r rename).1 := by
    rw [UploadOneFile]
    rcases h : UploadFiles t detect ng fieldOrder r rename with ⟨t', files, err⟩
    rcases err with - | e
    · rcases files with - | ⟨f, fs⟩ <;> rfl
    · rfl
  refine ⟨?_, ?_, ?_, ?_, hone, ?_⟩ <;>
    rw [uploadFiles_fst] <;>
    by_cases h : t.MaxFileSize = 0 <;>
    simp [h, uploadFiles_fst]

/-! ## Slugify (src/v2/tools.go lines 177-187)

Strings are modelled as lists of characters; `strings.ToLower` is
modelled by `asciiLower` (ASCII case folding — the regular expression
`[^a-z\d]` only keeps ASCII characters anyway, and every concrete input
is ASCII). -/

/-- The two Slugify errors: "empty string not permitted" and "after
removing characters, slug is zero length". -/
inductive SlugErr where
  | emptyInput
  | emptyResult
deriving DecidableEq

/-- A character the regular expression `[^a-z\d]+` does not match: one
that survives into the slug. -/
def slugChar (c : Char) : Bool :=
  (decide ('a' ≤ c) && decide (c ≤ 'z')) || (decide ('0' ≤ c) && decide (c ≤ '9'))

/-- Single pass behind `replaceRuns`: the flag records whether the
previous character belonged to a run of replaced characters, so that a
whole maximal run yields one hyphen. -/
def runsAux : Bool → List Char → List Char
  | _, [] => []
  | inRun, c :: cs =>
    if slugChar c then c :: runsAux false cs
    else if inRun then runsAux true cs
    else '-' :: runsAux true cs

/-- `re.ReplaceAllLiteralString(s, "-")` for `re = [^a-z\d]+`: every
maximal run of non-slug characters becomes a single hyphen. -/
def replaceRuns (l : List Char) : List Char := runsAux false l

theorem runsAux_true (cs : List Char) :
    runsAux true cs = runsAux false (cs.dropWhile (fun d => !slugChar d)) := by
  induction cs with
  | nil => rfl
  | cons c cs ih =>
    rcases hc : slugChar c with - | -
    · rw [runsAux, if_neg (by simp [hc]), if_pos rfl,
        List.dropWhile_cons_of_pos (by simp [hc]), ih]
    · rw [runsAux, if_pos hc, List.dropWhile_cons_of_neg (by simp [hc]),
        runsAux, if_pos hc]

theorem replaceRuns_nil : replaceRuns [] = [] := rfl

theorem replaceRuns_cons_good {c : Char} (cs : List Char)
    (h : slugChar c = true) : replaceRuns (c :: cs) = c :: replaceRuns cs := by
  rw [replaceRuns, runsAux, if_pos h]
  rfl

theorem replaceRuns_cons_bad {c : Char} (cs : List Char)
    (h : slugChar c = false) :
    replaceRuns (c :: cs) =
      '-' :: replaceRuns (cs.dropWhile (fun d => !slugChar d)) := by
  rw [replaceRuns, runsAux, if_neg (by simp [h]), if_neg (by simp)]
  rw [runsAux_true]
  rfl

/-- Go `strings.Trim(s, "-")`: drop hyphens from both ends. -/
def goTrimHyphens (l : List Char) : List Char :=
  ((l.dropWhile (fun c => c = '-')).reverse.dropWhile (fun c => c = '-')).reverse

/-- `Slugify` (src/v2/tools.go lines 177-187): reject the empty string,
lower-case, replace each maximal non-slug run with one hyphen, trim
hyphens, and reject a slug that came out empty. -/
def Slugify (s : List Char) : Except SlugErr (List Char) :=
  if s = [] then .error .emptyInput
  else
    let slug := goTrimHyphens (replaceRuns (s.map asciiLower))
    if slug.length = 0 then .error .emptyResult
    else .ok slug

/-- The spec's reading of the transformation, stated independently: the
maximal runs of kept characters of the lowered string, in order. -/
def specGroups : List Char → List (List Char)
  | [] => []
  | c :: cs =>
    if slugChar c then
      (c :: cs.takeWhile slugChar) :: specGroups (cs.dropWhile slugChar)
    else specGroups (cs.dropWhile (fun d => !slugChar d))
termination_by l => l.length
decreasing_by
  all_goals simp_wf
  · have hd := (List.dropWhile_sublist (l := cs) slugChar).length_le
    omega
  · have hd := (List.dropWhile_sublist (l := cs) (fun d => !slugChar d)).length_le
    omega

/-- Modelled from the spec's words: lower-case the input, then the slug
is the maximal runs of `[a-z0-9]` characters joined by single hyphens
(equivalently: replace each maximal other run by a hyphen and trim the
ends); empty input and an empty outcome are the two errors. -/
def slugifySpec (s : List Char) : Except SlugErr (List Char) :=
  if s = [] then .error .emptyInput
  else
    let slug := List.intercalate ['-'] (specGroups (s.map asciiLower))
    if slug.length = 0 then .error .emptyResult
    else .ok slug

theorem slugChar_ne_dash (c : Char) (h : slugChar c = true) : c ≠ '-' := by
  intro he
  subst he
  exact absurd h (by decide)

theorem dropWhile_head_false {p : Char → Bool} :
    ∀ (l : List Char) (b : Char) (t : List Char),
      l.dropWhile p = b :: t → p b = false := by
  intro l
  induction l with
  | nil => intro b t h; simp [List.dropWhile] at h
  | cons a l ih =>
    intro b t h
    rw [List.dropWhile] at h
    rcases hp : p a
    · rw [hp] at h
      obtain ⟨h1, -⟩ := List.cons.injEq _ _ _ _ ▸ h
      rw [← h1]
      exact hp
    · rw [hp] at h
      exact ih b t h

theorem replaceRuns_append_good :
    ∀ (g r : List Char), (∀ c ∈ g, slugChar c = true) →
      replaceRuns (g ++ r) = g ++ replaceRuns r := by
  intro g
  induction g with
  | nil => intro r _; rfl
  | cons c g ih =>
    intro r hg
    have hc : slugChar c = true := hg c (List.mem_cons_self c g)
    rw [List.cons_append, replaceRuns_cons_good (g ++ r) hc]
    rw [ih r (fun d hd => hg d (List.mem_cons_of_mem c hd))]
    rfl

theorem dropWhile_dash_of_none {l : List Char}
    (h : ∀ c ∈ l, c ≠ '-') : l.dropWhile (fun c => c = '-') = l := by
  rcases l with - | ⟨a, l⟩
  · rfl
  · rw [List.dropWhile]
    have : (a = '-') = False := by
      simp [h a (List.mem_cons_self a l)]
    simp [this]

/-- Trailing-trim helper: trimming hyphens off the right end. -/
def backTrim (l : List Char) : List Char :=
  (l.reverse.dropWhile (fun c => c = '-')).reverse

theorem backTrim_no_dash {l : List Char}
    (h : ∀ c ∈ l, c ≠ '-') : backTrim l = l := by
  rw [backTrim, dropWhile_dash_of_none, List.reverse_reverse]
  intro c hc
  exact h c (List.mem_reverse.mp hc)

theorem goTrimHyphens_eq (l : List Char) :
    goTrimHyphens l = backTrim (l.dropWhile (fun c => c = '-')) := rfl

theorem backTrim_append (a b : List Char) :
    backTrim (a ++ b) = if backTrim b = [] then backTrim a else a ++ backTrim b := by
  unfold backTrim
  rw [List.reverse_append, List.dropWhile_append]
  rcases hb : b.reverse.dropWhile (fun c => decide (c = '-')) with - | ⟨x, xs⟩
  · simp [hb]
  · simp only [hb, List.isEmpty_cons, Bool.false_eq_true, if_false]
    rw [if_neg (by simp)]
    simp

theorem backTrim_cons_ne {a : Char} {l : List Char} (h : a ≠ '-') :
    backTrim (a :: l) ≠ [] := by
  intro he
  have h2 := congrArg List.reverse he
  rw [backTrim, List.reverse_reverse, List.reverse_nil] at h2
  rw [List.dropWhile_eq_nil_iff] at h2
  have h3 := h2 a (by simp)
  simp at h3
  exact h h3

theorem intercalate_cons_cons (x y : List Char) (ys : List (List Char)) :
    List.intercalate ['-'] (x :: y :: ys) =
      x ++ ['-'] ++ List.intercalate ['-'] (y :: ys) := by
  simp [List.intercalate, List.intersperse]

theorem intercalate_single (x : List Char) :
    List.intercalate ['-'] [x] = x := by
  simp [List.intercalate, List.intersperse]

/-- Replacing each maximal run of dropped characters by a hyphen and
trimming hyphens off both ends is the same as joining the maximal kept
runs with single hyphens. -/
theorem trim_replace_eq_groups (l : List Char) :
    goTrimHyphens (replaceRuns l) = List.intercalate ['-'] (specGroups l) := by
  suffices main : ∀ (n : Nat) (l : List Char), l.length ≤ n →
      goTrimHyphens (replaceRuns l) = List.intercalate ['-'] (specGroups l) by
    exact main l.length l (Nat.le_refl _)
  intro n
  induction n with
  | zero =>
    intro l hl
    have hnil : l = [] := List.length_eq_zero.mp (Nat.le_zero.mp hl)
    subst hnil
    rw [replaceRuns_nil, specGroups]
    rfl
  | succ n ih =>
    intro l hl
    rcases l with - | ⟨c, cs⟩
    · rw [replaceRuns_nil, specGroups]
      rfl
    have hlen : cs.length ≤ n := by
      simp only [List.length_cons] at hl
      omega
    rcases hsc : slugChar c with - | -
    · -- the head is dropped: both sides recurse on the rest of the bad run
      rw [replaceRuns_cons_bad cs hsc, specGroups, if_neg (by simp [hsc])]
      rw [goTrimHyphens_eq, List.dropWhile_cons_of_pos (by simp), ← goTrimHyphens_eq]
      have hd : (cs.dropWhile (fun d => !slugChar d)).length ≤ cs.length :=
        (List.dropWhile_sublist _).length_le
      exact ih _ (by omega)
    · -- the head is kept: it opens the group c :: takeWhile slugChar cs
      rw [replaceRuns_cons_good cs hsc, specGroups, if_pos hsc]
      have hcs : cs.takeWhile slugChar ++ cs.dropWhile slugChar = cs :=
        List.takeWhile_append_dropWhile slugChar cs
      have hgood : ∀ d ∈ cs.takeWhile slugChar, slugChar d = true :=
        fun d hd => List.mem_takeWhile_imp hd
      have hrep : replaceRuns cs =
          cs.takeWhile slugChar ++ replaceRuns (cs.dropWhile slugChar) := by
        conv_lhs => rw [← hcs]
        exact replaceRuns_append_good _ _ hgood
      rw [hrep]
      have hne : c ≠ '-' := slugChar_ne_dash c hsc
      rw [goTrimHyphens_eq, List.dropWhile_cons_of_neg (by simp [hne])]
      have hgnd : ∀ d ∈ c :: cs.takeWhile slugChar, d ≠ '-' := by
        intro d hd
        rcases List.mem_cons.mp hd with h1 | h2
        · subst h1; exact hne
        · exact slugChar_ne_dash d (hgood d h2)
      rcases hr : cs.dropWhile slugChar with - | ⟨d, ds⟩
      · -- no dropped run follows: the whole list is one kept group
        rw [replaceRuns_nil, List.append_nil, specGroups, intercalate_single]
        exact backTrim_no_dash hgnd
      · -- a dropped run follows the group
        have hdbad : slugChar d = false := by
          have := dropWhile_head_false cs d ds hr
          simpa using this
        rw [replaceRuns_cons_bad ds hdbad, specGroups, if_neg (by simp [hdbad])]
        have hd2 : (ds.dropWhile (fun e => !slugChar e)).length ≤ ds.length :=
          (List.dropWhile_sublist _).length_le
        have hdslen : ds.length < cs.length := by
          have := congrArg List.length hcs
          rw [hr] at this
          simp only [List.length_append, List.length_cons] at this
          omega
        have ihy := ih (ds.dropWhile (fun e => !slugChar e)) (by omega)
        have hassoc : (c :: (cs.takeWhile slugChar ++
            '-' :: replaceRuns (ds.dropWhile (fun e => !slugChar e)))) =
            (c :: cs.takeWhile slugChar ++ ['-']) ++
              replaceRuns (ds.dropWhile (fun e => !slugChar e)) := by
          simp
        rw [hassoc, backTrim_append]
        rcases hy : ds.dropWhile (fun e => !slugChar e) with - | ⟨e, es⟩
        · -- the dropped run reaches the end: the trailing hyphen is trimmed
          rw [replaceRuns_nil]
          rw [if_pos (show backTrim ([] : List Char) = [] from rfl)]
          rw [backTrim_append]
          rw [if_pos (show backTrim ['-'] = [] from by decide)]
          rw [specGroups, intercalate_single]
          exact backTrim_no_dash hgnd
        · -- another kept group follows
          have hegood : slugChar e = true := by
            have := dropWhile_head_false ds e es hy
            simpa using this
          have hX : replaceRuns (e :: es) = e :: replaceRuns es := by
            exact replaceRuns_cons_good es hegood
          have hXne : backTrim (replaceRuns (e :: es)) ≠ [] := by
            rw [hX]
            exact backTrim_cons_ne (slugChar_ne_dash e hegood)
          rw [if_neg hXne]
          have hfront : goTrimHyphens (replaceRuns (e :: es)) =
              backTrim (replaceRuns (e :: es)) := by
            rw [goTrimHyphens_eq, hX,
              List.dropWhile_cons_of_neg (by simp [slugChar_ne_dash e hegood]), ← hX]
          rw [hy] at ihy
          rw [← hfront, ihy, specGroups, if_pos hegood, intercalate_cons_cons]

/-- C6: `Slugify` agrees with the spec's description on every input —
empty input fails with the EmptyInput error; otherwise the input is
lower-cased, every maximal run of characters outside a-z, 0-9 becomes a
single hyphen with leading and trailing hyphens trimmed (equivalently,
the kept maximal runs joined by hyphens, `slugifySpec`), an empty
outcome fails with the EmptyResult error, and otherwise the slug is
returned — together with the spec's concrete examples. -/
theorem slugify_matches_spec :
    (∀ s : List Char, Slugify s = slugifySpec s) ∧
    Slugify ("now is the time".data) = .ok ("now-is-the-time".data) ∧
    Slugify ([] : List Char) = .error .emptyInput ∧
    Slugify ("Now is the time for all GOOD men! + fish & such &^123".data)
      = .ok ("now-is-the-time-for-all-good-men-fish-such-123".data) ∧
    Slugify ("!!!".data) = .error .emptyResult := by
  refine ⟨?_, by rfl, by rfl, by rfl, by rfl⟩
  intro s
  rw [Slugify, slugifySpec]
  rcases hs : decide (s = []) with - | -
  · simp only [of_decide_eq_false hs, if_false]
    rw [trim_replace_eq_groups]
  · simp [of_decide_eq_true hs]

/-! ## Strict JSON reading (src/v2/tools.go lines 205-254)

`ReadJSON` wraps the body in `http.MaxBytesReader` and decodes with
`encoding/json`. The body is modelled as a list of characters (one byte
each — concrete inputs are ASCII); the decoder and the byte limiter are
modelled together by a scanner that consumes the body one byte at a
time, failing with `tooLarge` the moment a byte past the limit is
needed (`MaxBytesReader` delivers data read before the limit together
with the deferred error, so for `ReadJSON`'s observable behaviour this
byte-wise accounting matches the decoder's chunked reads). The
destination value is modelled by its set of JSON field names; decoding
a value into it succeeds except for the unknown-field check (`
UnmarshalTypeError` is not modelled — no claim concerns it). Number and
escape validation inside the scanner is coarser than `encoding/json`'s,
which no claim depends on. -/

/-- Opening brace, closing brace, double quote and backslash characters
(written by code point). -/
def lbrace : Char := Char.ofNat 123

def rbrace : Char := Char.ofNat 125

def dquote : Char := Char.ofNat 34

def bslash : Char := Char.ofNat 92

/-- The decode failures `ReadJSON`'s switch distinguishes: `eof` is
`io.EOF` (no value at all), `unexpEOF` is `io.ErrUnexpectedEOF`,
`malformed` a `*json.SyntaxError` with its offset, `unknownKey` the
"json: unknown field" error, `tooLarge` the `http.MaxBytesReader`
error. -/
inductive JErr where
  | eof
  | unexpEOF
  | malformed (off : Nat)
  | unknownKey (k : String)
  | tooLarge
deriving DecidableEq

/-- Read one byte at absolute position `pos`: end of the stream is an
unexpected end of input (callers use this mid-value only), and a byte
past the limit is the body-too-large error. -/
def readc (maxB : Int) (rest : List Char) (pos : Nat) :
    Except JErr (Char × List Char × Nat) :=
  match rest with
  | [] => .error .unexpEOF
  | c :: cs =>
    if ((pos : Int) + 1) ≤ maxB then .ok (c, cs, pos + 1) else .error .tooLarge

def isWS (c : Char) : Bool := c == ' ' || c == '\t' || c == '\n' || c == '\r'

/-- Skip JSON whitespace, counting every byte against the limit. -/
def skipWS (maxB : Int) : List Char → Nat → Except JErr (List Char × Nat)
  | [], pos => .ok ([], pos)
  | c :: cs, pos =>
    if isWS c then
      if ((pos : Int) + 1) ≤ maxB then skipWS maxB cs (pos + 1)
      else .error .tooLarge
    else .ok (c :: cs, pos)

/-- Scan a JSON string after its opening quote, returning its contents
(escapes are taken as the escaped character itself, which is exact for
the quote and backslash escapes the concrete inputs use). -/
def scanString (maxB : Int) :
    List Char → Nat → List Char → Except JErr (String × List Char × Nat)
  | [], _, _ => .error .unexpEOF
  | c :: cs, pos, acc =>
    if ((pos : Int) + 1) ≤ maxB then
      if c == dquote then .ok (String.mk acc.reverse, cs, pos + 1)
      else if c == bslash then
        match cs with
        | [] => .error .unexpEOF
        | d :: ds =>
          if ((pos : Int) + 2) ≤ maxB then scanString maxB ds (pos + 2) (d :: acc)
          else .error .tooLarge
      else scanString maxB cs (pos + 1) (c :: acc)
    else .error .tooLarge

/-- Consume an exact character sequence (the tail of a literal). -/
def expectChars (maxB : Int) :
    List Char → List Char → Nat → Except JErr (List Char × Nat)
  | [], rest, pos => .ok (rest, pos)
  | e :: es, rest, pos =>
    match rest with
    | [] => .error .unexpEOF
    | c :: cs =>
      if ((pos : Int) + 1) ≤ maxB then
        if c == e then expectChars maxB es cs (pos + 1)
        else .error (.malformed (pos + 1))
      else .error .tooLarge

def numChar (c : Char) : Bool :=
  c.isDigit || c == '.' || c == '-' || c == '+' || c == 'e' || c == 'E'

/-- Consume the remaining characters of a number (the first one is
already consumed); a number ends before the first non-number byte. -/
def scanNumber (maxB : Int) : List Char → Nat → Except JErr (List Char × Nat)
  | [], pos => .ok ([], pos)
  | c :: cs, pos =>
    if numChar c then
      if ((pos : Int) + 1) ≤ maxB then scanNumber maxB cs (pos + 1)
      else .error .tooLarge
    else .ok (c :: cs, pos)

/-- The scanning modes of the single-pass value scanner: one JSON
value; an object body after its opening brace; object members; an array
body after its opening bracket; array elements. -/
inductive ScanMode where
  | value
  | object
  | members
  | arrayStart
  | elems
deriving DecidableEq

/-- Scan one JSON value (mode `value`; the other modes are its states
inside objects and arrays). The returned list holds the top-level
object's keys (empty for any other kind of value), for the
unknown-field check. The fuel only bounds the recursion depth and is
chosen large enough by the caller to never run out on a real input; the
recursion is structural on the fuel so that the scanner computes by
kernel reduction. -/
def scanCore (maxB : Int) :
    Nat → ScanMode → List Char → Nat → Except JErr (List String × List Char × Nat)
  | 0, _, _, pos => .error (.malformed pos)
  | fuel + 1, .value, rest, pos =>
    (match readc maxB rest pos with
    | .error e => .error e
    | .ok (c, r1, p1) =>
      if c == lbrace then scanCore maxB fuel .object r1 p1
      else if c == '[' then scanCore maxB fuel .arrayStart r1 p1
      else if c == dquote then
        match scanString maxB r1 p1 [] with
        | .error e => .error e
        | .ok (_, r2, p2) => .ok ([], r2, p2)
      else if c == 'n' then
        match expectChars maxB ['u', 'l', 'l'] r1 p1 with
        | .error e => .error e
        | .ok (r2, p2) => .ok ([], r2, p2)
      else if c == 't' then
        match expectChars maxB ['r', 'u', 'e'] r1 p1 with
        | .error e => .error e
        | .ok (r2, p2) => .ok ([], r2, p2)
      else if c == 'f' then
        match expectChars maxB ['a', 'l', 's', 'e'] r1 p1 with
        | .error e => .error e
        | .ok (r2, p2) => .ok ([], r2, p2)
      else if c == '-' || c.isDigit then
        match scanNumber maxB r1 p1 with
        | .error e => .error e
        | .ok (r2, p2) => .ok ([], r2, p2)
      else .error (.malformed p1))
  | fuel + 1, .object, rest, pos =>
    (match skipWS maxB rest pos with
    | .error e => .error e
    | .ok (r1, p1) =>
      match r1 with
      | [] => .error .unexpEOF
      | c :: cs =>
        if c == rbrace then
          if ((p1 : Int) + 1) ≤ maxB then .ok ([], cs, p1 + 1)
          else .error .tooLarge
        else scanCore maxB fuel .members r1 p1)
  | fuel + 1, .members, rest, pos =>
    (match readc maxB rest pos with
    | .error e => .error e
    | .ok (c, r1, p1) =>
      if c == dquote then
        match scanString maxB r1 p1 [] with
        | .error e => .error e
        | .ok (k, r2, p2) =>
          match skipWS maxB r2 p2 with
          | .error e => .error e
          | .ok (r3, p3) =>
            match readc maxB r3 p3 with
            | .error e => .error e
            | .ok (c2, r4, p4) =>
              if c2 == ':' then
                match skipWS maxB r4 p4 with
                | .error e => .error e
                | .ok (r5, p5) =>
                  match scanCore maxB fuel .value r5 p5 with
                  | .error e => .error e
                  | .ok (_, r6, p6) =>
                    match skipWS maxB r6 p6 with
                    | .error e => .error e
                    | .ok (r7, p7) =>
                      match readc maxB r7 p7 with
                      | .error e => .error e
                      | .ok (c3, r8, p8) =>
                        if c3 == ',' then
                          match skipWS maxB r8 p8 with
                          | .error e => .error e
                          | .ok (r9, p9) =>
                            match scanCore maxB fuel .members r9 p9 with
                            | .error e => .error e
                            | .ok (ks, r10, p10) => .ok (k :: ks, r10, p10)
                        else if c3 == rbrace then .ok ([k], r8, p8)
                        else .error (.malformed p8)
              else .error (.malformed p4)
      else .error (.malformed p1))
  | fuel + 1, .arrayStart, rest, pos =>
    (match skipWS maxB rest pos with
    | .error e => .error e
    | .ok (r1, p1) =>
      match r1 with
      | [] => .error .unexpEOF
      | c :: cs =>
        if c == ']' then
          if ((p1 : Int) + 1) ≤ maxB then .ok ([], cs, p1 + 1)
          else .error .tooLarge
        else scanCore maxB fuel .elems r1 p1)
  | fuel + 1, .elems, rest, pos =>
    (match scanCore maxB fuel .value rest pos with
    | .error e => .error e
    | .ok (_, r1, p1) =>
      match skipWS maxB r1 p1 with
      | .error e => .error e
      | .ok (r2, p2) =>
        match readc maxB r2 p2 with
        | .error e => .error e
        | .ok (c, r3, p3) =>
          if c == ',' then
            match skipWS maxB r3 p3 with
            | .error e => .error e
            | .ok (r4, p4) => scanCore maxB fuel .elems r4 p4
          else if c == ']' then .ok ([], r3, p3)
          else .error (.malformed p3))

/-- One `dec.Decode` call: skip whitespace (a clean end of the stream
here is `io.EOF`), scan one value, and, when a destination shape is
given (`DisallowUnknownFields`), fail on the first top-level object key
that is not a field of the destination — the error string `encoding/
json` produces for it is `json: unknown field "<key>"`. Returns the
unconsumed remainder and the new byte position. -/
def decodeOne (known : Option (List String)) (maxB : Int)
    (rest : List Char) (pos : Nat) : Except JErr (List Char × Nat) :=
  match skipWS maxB rest pos with
  | .error e => .error e
  | .ok (r1, p1) =>
    match r1 with
    | [] => .error .eof
    | _ :: _ =>
      match scanCore maxB (4 * r1.length + 4) .value r1 p1 with
      | .error e => .error e
      | .ok (keys, r2, p2) =>
        match known with
        | none => .ok (r2, p2)
        | some ks =>
          match keys.find? (fun k => !(ks.contains k)) with
          | some k => .error (.unknownKey k)
          | none => .ok (r2, p2)

/-- `maxBytes` of `ReadJSON` (src/v2/tools.go lines 206-209): 1 MiB
unless `MaxJSONSize` is set. -/
def maxBytesOf (t : Tools) : Int :=
  if t.MaxJSONSize ≠ 0 then t.MaxJSONSize else 1024 * 1024

/-- The decoder's destination shape: field checking is off entirely when
unknown fields are allowed (src/v2/tools.go lines 214-216). -/
def knownOf (t : Tools) (destFields : List String) : Option (List String) :=
  if t.AllowUnknownFields then none else some destFields

def goHasPrefix (s p : String) : Bool := p.data.isPrefixOf s.data

/-- Go `strings.TrimPrefix`: drops the prefix when present, otherwise
returns the string unchanged. -/
def goTrimPrefix (s p : String) : String :=
  if p.data.isPrefixOf s.data then String.mk (s.data.drop p.data.length) else s

def quoteGo (k : String) : String := "\"" ++ k ++ "\""

/-- `err.Error()` of each modelled decode error, as the switch's string
comparisons see it. Only the unknown-field and body-too-large strings
are reached by string comparison in the source; the others are matched
by `errors.As`/`errors.Is` first. -/
def goErrorString : JErr → String
  | .eof => "EOF"
  | .unexpEOF => "unexpected EOF"
  | .malformed off => "invalid character (at " ++ toString off ++ ")"
  | .unknownKey k => "json: unknown field " ++ quoteGo k
  | .tooLarge => "http: request body too large"

/-- The error-classifying switch of `ReadJSON` (src/v2/tools.go lines
218-247), branch for branch. The unknown-field branch is translated
verbatim: the guard checks the prefix "json: unknown field" but the
`TrimPrefix` call is given the misspelled "json: unknown fifeld", so
nothing is ever trimmed. -/
def translateDecodeError (e : JErr) (maxBytes : Int) : String :=
  match e with
  | .malformed off =>
    "body contains badly-formed JSON (at character " ++ toString off ++ ")"
  | .unexpEOF => "body contains badly-formed JSON"
  | .eof => "body must not be empty"
  | e =>
    let s := goErrorString e
    if goHasPrefix s "json: unknown field" then
      "body contains unknown key " ++ goTrimPrefix s "json: unknown fifeld"
    else if s == "http: request body too large" then
      "body must not be larger than " ++ toString maxBytes ++ " bytes"
    else s

inductive ReadJSONResult where
  | ok
  | err (msg : String)
deriving DecidableEq

/-- `ReadJSON` (src/v2/tools.go lines 205-254): decode one value into
the destination (modelled by its field names); on failure translate the
error through the switch; on success attempt a second, discarded decode
and demand it signal `io.EOF`, otherwise fail with "body must contain
only one JSON value". The second decode's own error kind is irrelevant:
anything other than `io.EOF` yields the same message. -/
def ReadJSON (t : Tools) (destFields : List String) (body : List Char) :
    ReadJSONResult :=
  let maxBytes := maxBytesOf t
  match decodeOne (knownOf t destFields) maxBytes body 0 with
  | .error e => .err (translateDecodeError e maxBytes)
  | .ok (rest, pos) =>
    match decodeOne none maxBytes rest pos with
    | .error .eof => .ok
    | _ => .err "body must contain only one JSON value"

/-- C7: once the first value has decoded, `ReadJSON` attempts a second
discarded decode; it succeeds exactly when that second decode signals a
clean end of input (the body held exactly one JSON value), and fails
with the message "body must contain only one JSON value" exactly
otherwise — whether the remainder holds a second value, garbage, or
bytes past the limit. -/
theorem readJSON_single_value (t : Tools) (destFields : List String)
    (body rest : List Char) (pos : Nat)
    (h : decodeOne (knownOf t destFields) (maxBytesOf t) body 0 = .ok (rest, pos)) :
    (ReadJSON t destFields body = .ok ↔
      decodeOne none (maxBytesOf t) rest pos = .error .eof) ∧
    (ReadJSON t destFields body = .err "body must contain only one JSON value" ↔
      ¬ decodeOne none (maxBytesOf t) rest pos = .error .eof) := by
  simp only [ReadJSON]
  rw [h]
  dsimp only
  rcases h2 : decodeOne none (maxBytesOf t) rest pos with e | ⟨r2, p2⟩
  · rcases e with - | - | off | k | - <;> constructor <;> simp
  · constructor <;> simp

/-- The body of exactly one JSON object with the single key foo. -/
def bodyFoo : List Char :=
  [lbrace, dquote] ++ "foo".data ++ [dquote, ':', ' ', dquote] ++
    "bar".data ++ [dquote, rbrace]

/-- A `Tools` with every JSON option left at its zero value: 1 MiB
limit, unknown fields rejected. -/
def toolsJ : Tools := {}

/-- A `Tools` whose JSON body limit is 3 bytes. -/
def toolsJ3 : Tools := { MaxJSONSize := 3 }

/-- A `Tools` whose JSON body limit is 1024 bytes. -/
def toolsJK : Tools := { MaxJSONSize := 1024 }

/-- C7, witness: the theorem applied to the one-object body `bodyFoo`
under the default configuration; the first decode consumes all 14
bytes. -/
theorem readJSON_single_value_witness :
    (ReadJSON toolsJ ["foo"] bodyFoo = .ok ↔
      decodeOne none (maxBytesOf toolsJ) [] 14 = .error .eof) ∧
    (ReadJSON toolsJ ["foo"] bodyFoo = .err "body must contain only one JSON value" ↔
      ¬ decodeOne none (maxBytesOf toolsJ) [] 14 = .error .eof) :=
  readJSON_single_value toolsJ ["foo"] bodyFoo [] 14 rfl

/-- C8, amended: `ReadJSON` reports the body-too-large message, with
the configured limit (1 MiB when `MaxJSONSize` is unset), exactly when
the FIRST decode fails by needing a byte past the limit. (A body longer
than the limit whose first value completes within it fails with the
trailing-content message instead — see the counterexample.) -/
theorem readJSON_body_too_large (t : Tools) (destFields : List String)
    (body : List Char)
    (h : decodeOne (knownOf t destFields) (maxBytesOf t) body 0 = .error .tooLarge) :
    ReadJSON t destFields body =
      .err ("body must not be larger than " ++ toString (maxBytesOf t) ++ " bytes") ∧
    maxBytesOf t = (if t.MaxJSONSize ≠ 0 then t.MaxJSONSize else 1048576) := by
  constructor
  · simp only [ReadJSON]
    rw [h]
    rfl
  · rw [maxBytesOf]
    norm_num

/-- A body of four whitespace bytes: with a 3-byte limit the first
decode needs the fourth byte and fails with the limiter's error. -/
def spaces4 : List Char := [' ', ' ', ' ', ' ']

/-- C8, witness: the theorem applied to a 4-byte body under a 3-byte
limit. -/
theorem readJSON_body_too_large_witness :
    ReadJSON toolsJ3 ["foo"] spaces4 =
      .err ("body must not be larger than " ++ toString (maxBytesOf toolsJ3) ++ " bytes") ∧
    maxBytesOf toolsJ3 =
      (if toolsJ3.MaxJSONSize ≠ 0 then toolsJ3.MaxJSONSize else 1048576) :=
  readJSON_body_too_large toolsJ3 ["foo"] spaces4 rfl

/-- The 4-byte body of an empty object followed by two garbage bytes. -/
def bodyTrailing : List Char := [lbrace, rbrace, 'x', 'y']

/-- C8, counterexample. The claim says every body longer than the
configured limit fails with the body-too-large message. With the limit
set to 3, this 4-byte body — an empty object followed by trailing
bytes — instead fails with "body must contain only one JSON value": the
first value completes within the limit, so the limiter's error never
reaches the first decode and the second-decode check fires first. -/
theorem readJSON_too_large_cex :
    ReadJSON toolsJ3 ["foo"] bodyTrailing = .err "body must contain only one JSON value" ∧
    maxBytesOf toolsJ3 < (bodyTrailing.length : Int) ∧
    ReadJSON toolsJ3 ["foo"] bodyTrailing ≠
      .err ("body must not be larger than " ++ toString (maxBytesOf toolsJ3) ++ " bytes") :=
  ⟨by rfl, by decide, by decide⟩

/-- The body of one object whose single key fooo matches no destination
field. -/
def bodyUnknown : List Char :=
  [lbrace, dquote] ++ "fooo".data ++ [dquote, ':', ' ', dquote] ++
    "bar".data ++ [dquote, rbrace]

/-- C9: on a body with the unknown key fooo (destination field foo,
unknown fields disallowed), `ReadJSON`'s message embeds the whole Go
error — it is "body contains unknown key json: unknown field \"fooo\"",
not the claimed "body contains unknown key \"fooo\"" — because the
`TrimPrefix` call misspells the prefix as "json: unknown fifeld" and so
strips nothing, while the adjacent `HasPrefix` guard spells it
correctly. -/
theorem readJSON_unknown_field_message :
    ReadJSON toolsJK ["foo"] bodyUnknown =
      .err "body contains unknown key json: unknown field \"fooo\"" ∧
    "body contains unknown key json: unknown field \"fooo\"" ≠
      "body contains unknown key \"fooo\"" :=
  ⟨by rfl, by decide⟩

end Toolkit
